import Mathlib

/-!
Shallow embedding of the `TSM` temporal state machine from `src/tsm.ts`.

States are an arbitrary type `S` with decidable equality (the source is
generic over `StateEnum` and compares states with `===`).  The TS `Map`
is modelled as an insertion-ordered association list (`mapGet` returns
the first binding, `mapSet` replaces in place or appends, `mapDelete`
removes the binding).  JavaScript timers are modelled explicitly: the
host's pending-timeout queue is a list of `PendingTimer` records carried
inside the machine, `setTimeout` appends a fresh record (with the config
captured by the closure, as in the source) and `clearTimeout` removes it
by id.  Entry callbacks are values of `Cb`: an identity tag (standing
for the JS function reference) plus a list of actions the callback body
performs, where an action can recursively call `go` (needed to model the
reentrancy the source permits).  `go` is therefore written with explicit
fuel.  Observable side effects (timer arms/disarms, callback and
`onExpire` invocations, the `console.warn` on an invalid expiry target)
are collected in an event trace.
-/

/-- An entry in a TS `Map`, modelled as an insertion-ordered association list:
lookup of the first binding for a key. -/
def mapGet {S V : Type} [DecidableEq S] : List (S × V) → S → Option V
  | [], _ => none
  | (k, v) :: rest, key => if k = key then some v else mapGet rest key

/-- TS `Map.set`: replace the binding in place if the key is present, else append. -/
def mapSet {S V : Type} [DecidableEq S] : List (S × V) → S → V → List (S × V)
  | [], key, v => [(key, v)]
  | (k, w) :: rest, key, v =>
      if k = key then (key, v) :: rest else (k, w) :: mapSet rest key v

/-- TS `Map.delete`: remove the binding for a key. -/
def mapDelete {S V : Type} [DecidableEq S] (l : List (S × V)) (key : S) : List (S × V) :=
  l.filter (fun p => decide ¬(p.1 = key))

theorem mapGet_set_self {S V : Type} [DecidableEq S] (l : List (S × V)) (k : S) (v : V) :
    mapGet (mapSet l k v) k = some v := by
  induction l with
  | nil => simp [mapGet, mapSet]
  | cons hd tl ih =>
      by_cases h : hd.1 = k
      · simp [mapSet, mapGet, h]
      · simp [mapSet, mapGet, h, ih]

theorem mapGet_set_ne {S V : Type} [DecidableEq S] (l : List (S × V)) (k k' : S) (v : V)
    (h : k ≠ k') : mapGet (mapSet l k v) k' = mapGet l k' := by
  induction l with
  | nil => simp [mapGet, mapSet, h]
  | cons hd tl ih =>
      by_cases hh : hd.1 = k
      · simp [mapSet, mapGet, hh, h]
      · by_cases hk : hd.1 = k'
        · simp [mapSet, mapGet, hh, hk, Ne.symm h]
        · simp [mapSet, mapGet, hh, hk, ih]

theorem mapGet_delete_self {S V : Type} [DecidableEq S] (l : List (S × V)) (k : S) :
    mapGet (mapDelete l k) k = none := by
  induction l with
  | nil => simp [mapGet, mapDelete]
  | cons hd tl ih =>
      by_cases h : hd.1 = k
      · simpa [mapDelete, List.filter_cons, h] using ih
      · simpa [mapDelete, List.filter_cons, h, mapGet] using ih

theorem mapGet_delete_ne {S V : Type} [DecidableEq S] (l : List (S × V)) (k k' : S)
    (h : k ≠ k') : mapGet (mapDelete l k) k' = mapGet l k' := by
  induction l with
  | nil => simp [mapGet, mapDelete]
  | cons hd tl ih =>
      by_cases hh : hd.1 = k
      · have hne : ¬ hd.1 = k' := by rw [hh]; exact h
        simpa [mapDelete, List.filter_cons, hh, mapGet, hne, h] using ih
      · by_cases hk : hd.1 = k'
        · simp [mapDelete, List.filter_cons, hh, mapGet, hk, Ne.symm h]
        · simpa [mapDelete, List.filter_cons, hh, mapGet, hk] using ih

theorem mem_of_mapGet_eq_some {S V : Type} [DecidableEq S] (l : List (S × V)) (k : S) (v : V)
    (h : mapGet l k = some v) : (k, v) ∈ l := by
  induction l with
  | nil => simp [mapGet] at h
  | cons hd tl ih =>
      match hd with
      | (a, b) =>
        by_cases hh : a = k
        · simp [mapGet, hh] at h
          subst hh
          subst h
          exact List.mem_cons_self _ _
        · simp [mapGet, hh] at h
          exact List.mem_cons_of_mem _ (ih h)

/-- A per-state node of the transition graph (class `Transitions` in the source). -/
structure Transitions (S : Type) where
  state : S
  fromStates : List S
  toStates : List S
deriving DecidableEq, Repr

/-- `StateTimeoutConfig` from the source.  The `onExpire` callback is modelled by
its identity tag (the function reference); its body is opaque to the engine. -/
structure TimeoutConfig (S : Type) where
  timeoutMs : Int
  expireTo : Option S
  onExpire : Option Nat
deriving DecidableEq, Repr

/-- An action a registered entry callback can take when invoked: recursively
call `go` on the machine (non-throwing, as a plain `go(target)` call). -/
inductive CbAct (S : Type) where
  | goTo : S → CbAct S
deriving DecidableEq, Repr

/-- An entry callback: an identity tag standing for the JS function reference
(`includes` in `on` compares references) plus the actions its body performs. -/
structure Cb (S : Type) where
  id : Nat
  acts : List (CbAct S)
deriving DecidableEq, Repr

/-- A scheduled `setTimeout` in the host's pending queue: the timer id handed
back by `setTimeout`, and the state/config captured by the closure. -/
structure PendingTimer (S : Type) where
  tid : Nat
  state : S
  config : TimeoutConfig S
deriving DecidableEq, Repr

/-- Observable side effects of the machine's operations, in order. -/
inductive Event (S : Type) where
  | disarm : S → Event S
  | arm : S → Event S
  | invoke : Cb S → S → S → Event S
  | expireCall : Nat → S → Event S
  | warnExpire : S → S → Event S
deriving DecidableEq, Repr

/-- The `TSM` instance state, together with the host's pending-timeout queue
(`pending`) and the `setTimeout` id counter (`nextId`). -/
structure Machine (S : Type) where
  initial : S
  current : S
  previous : S
  cbMap : List (S × List (Cb S))
  transitions : List (S × Transitions S)
  timeoutConfigs : List (S × TimeoutConfig S)
  activeTimers : List (S × Nat)
  pending : List (PendingTimer S)
  nextId : Nat
deriving DecidableEq, Repr

/-- `new TSM(initial)`. -/
def mkTSM {S : Type} (initial : S) : Machine S :=
  { initial := initial, current := initial, previous := initial,
    cbMap := [], transitions := [], timeoutConfigs := [], activeTimers := [],
    pending := [], nextId := 1 }

/-- First half of `addFromState`: create an empty node for a state if absent. -/
def ensureNode {S : Type} [DecidableEq S] (tr : List (S × Transitions S)) (s : S) :
    List (S × Transitions S) :=
  if (mapGet tr s).isSome then tr
  else mapSet tr s { state := s, fromStates := [], toStates := [] }

/-- First two statements of `addFromState`: ensure the from-node exists and
push `t` onto its `toStates` unless already included. -/
def upsertTo {S : Type} [DecidableEq S] (tr : List (S × Transitions S)) (f t : S) :
    List (S × Transitions S) :=
  let tr1 := ensureNode tr f
  match mapGet tr1 f with
  | none => tr1
  | some nd =>
      if t ∈ nd.toStates then tr1
      else mapSet tr1 f { nd with toStates := nd.toStates ++ [t] }

/-- Last two statements of `addFromState`: ensure the to-node exists and push
`f` onto its `fromStates` unless already included. -/
def upsertFrom {S : Type} [DecidableEq S] (tr : List (S × Transitions S)) (f t : S) :
    List (S × Transitions S) :=
  let tr3 := ensureNode tr t
  match mapGet tr3 t with
  | none => tr3
  | some nd =>
      if f ∈ nd.fromStates then tr3
      else mapSet tr3 t { nd with fromStates := nd.fromStates ++ [f] }

/-- `TSM.addFromState`: record the directed edge `f → t`, appending `t` to the
from-node's `toStates` and `f` to the to-node's `fromStates` unless present. -/
def addFromState {S : Type} [DecidableEq S] (m : Machine S) (f t : S) : Machine S :=
  { m with transitions := upsertFrom (upsertTo m.transitions f t) f t }

/-- `TSM.addTransition(from, to, loop)`. -/
def addTransition {S : Type} [DecidableEq S] (m : Machine S) (f t : S) (loop : Bool) :
    Machine S :=
  let m1 := addFromState m f t
  if loop then addFromState m1 t f else m1

/-- `TSM.addPath(...states)`: edge between each consecutive pair. -/
def addPath {S : Type} [DecidableEq S] (m : Machine S) : List S → Machine S
  | [] => m
  | [_] => m
  | a :: b :: rest => addPath (addFromState m a b) (b :: rest)

/-- Does the graph record the edge `f → t` (membership in `f`'s `toStates`)? -/
def hasEdgeB {S : Type} [DecidableEq S] (m : Machine S) (f t : S) : Bool :=
  match mapGet m.transitions f with
  | none => false
  | some nd => decide (t ∈ nd.toStates)

/-- Is the edge `f → t` recorded on both endpoints (in `f.toStates` and in
`t.fromStates`), the state `addFromState` establishes? -/
def edgeRecordedB {S : Type} [DecidableEq S] (m : Machine S) (f t : S) : Bool :=
  hasEdgeB m f t &&
    (match mapGet m.transitions t with
     | none => false
     | some nd => decide (f ∈ nd.fromStates))

/-- `TSM.canTransition`: an edge from `current` to the argument exists. -/
def canTransition {S : Type} [DecidableEq S] (m : Machine S) (s : S) : Bool :=
  match mapGet m.transitions m.current with
  | none => false
  | some tr => decide (s ∈ tr.toStates)

/-- `TSM.getValidTransitions` (the source returns a copy of the list). -/
def getValidTransitions {S : Type} [DecidableEq S] (m : Machine S) : List S :=
  match mapGet m.transitions m.current with
  | none => []
  | some tr => tr.toStates

/-- `TSM._clearStateTimeout`: if `state` has a tracked timer, `clearTimeout` it
(remove from the host's pending queue) and drop it from `activeTimers`. -/
def clearStateTimeoutI {S : Type} [DecidableEq S] (m : Machine S) (s : S) :
    Machine S × List (Event S) :=
  match mapGet m.activeTimers s with
  | none => (m, [])
  | some tid =>
      ({ m with
          pending := m.pending.filter (fun p => decide ¬(p.tid = tid)),
          activeTimers := mapDelete m.activeTimers s },
       [Event.disarm s])

/-- `TSM._startStateTimeout`: no-op without a config; otherwise clear any
existing timer for the state, then `setTimeout` a fresh one capturing the
current config, and track its id. -/
def startStateTimeout {S : Type} [DecidableEq S] (m : Machine S) (s : S) :
    Machine S × List (Event S) :=
  match mapGet m.timeoutConfigs s with
  | none => (m, [])
  | some cfg =>
      let r1 := clearStateTimeoutI m s
      let tid := r1.1.nextId
      ({ r1.1 with
          nextId := tid + 1,
          pending := r1.1.pending ++ [{ tid := tid, state := s, config := cfg }],
          activeTimers := mapSet r1.1.activeTimers s tid },
       r1.2 ++ [Event.arm s])

/-- `TSM._clearAllTimeouts`: `clearTimeout` every tracked timer, then clear the map. -/
def clearAllTimeouts {S : Type} [DecidableEq S] (m : Machine S) : Machine S :=
  let ids := m.activeTimers.map (fun e => e.2)
  { m with
      pending := m.pending.filter (fun p => decide ¬(p.tid ∈ ids)),
      activeTimers := [] }

/-- Run the body of an entry callback: each action is a recursive `go(target)`
call, interpreted by the supplied one-step-less `go` function. -/
def runActs {S : Type} (goF : Machine S → S → Machine S × List (Event S)) :
    List (CbAct S) → Machine S → Machine S × List (Event S)
  | [], m => (m, [])
  | CbAct.goTo t :: rest, m =>
      let r1 := goF m t
      let r2 := runActs goF rest r1.1
      (r2.1, r1.2 ++ r2.2)

/-- The callback-dispatch loop of `TSM.go`: each registered callback is invoked
in registration order with the machine's `previous` (read at invocation time,
as the source does) and the entered state. -/
def dispatchCbs {S : Type} (goF : Machine S → S → Machine S × List (Event S)) (target : S) :
    List (Cb S) → Machine S → Machine S × List (Event S)
  | [], m => (m, [])
  | cb :: rest, m =>
      let ev := Event.invoke cb m.previous target
      let r1 := runActs goF cb.acts m
      let r2 := dispatchCbs goF target rest r1.1
      (r2.1, ev :: (r1.2 ++ r2.2))

/-- The diagnostic payload of the error `TSM.go` throws on an invalid
transition with `throwOnInvalid`: the message interpolates the current state,
the attempted target, and the valid-target list. -/
structure GoErr (S : Type) where
  current : S
  target : S
  valid : List S
deriving DecidableEq, Repr

/-- `TSM.go(state, options)`.  Returns the machine, the event trace, and
either the returned state or the thrown error.  `fuel` bounds the depth of
reentrant `go` calls made by callbacks; at fuel 0 a nested call degenerates
to a no-op. -/
def go {S : Type} [DecidableEq S] :
    Nat → Machine S → S → Bool → Machine S × List (Event S) × Except (GoErr S) S
  | 0, m, _, _ => (m, [], Except.ok m.current)
  | Nat.succ fuel, m, target, thr =>
      if canTransition m target then
        let r1 := clearStateTimeoutI m m.current
        let m2 := { r1.1 with previous := r1.1.current, current := target }
        let cbs := (mapGet m2.cbMap target).getD []
        let r3 := dispatchCbs (fun mm t => ((go fuel mm t false).1, (go fuel mm t false).2.1))
          target cbs m2
        let r4 := startStateTimeout r3.1 target
        (r4.1, r1.2 ++ (r3.2 ++ r4.2), Except.ok r4.1.current)
      else if thr then
        (m, [], Except.error { current := m.current, target := target,
                               valid := getValidTransitions m })
      else
        (m, [], Except.ok m.current)

/-- The non-throwing `go` at a given fuel, as passed to callback bodies. -/
def goB {S : Type} [DecidableEq S] (fuel : Nat) (m : Machine S) (t : S) :
    Machine S × List (Event S) :=
  ((go fuel m t false).1, (go fuel m t false).2.1)

/-- `TSM._handleStateExpiration(state, config)`: the body of the `setTimeout`
closure.  Guard on still being in `state`; untrack the timer; then either call
`onExpire`, or `go(expireTo)` when valid, or warn. -/
def handleStateExpiration {S : Type} [DecidableEq S] (fuel : Nat) (m : Machine S) (st : S)
    (cfg : TimeoutConfig S) : Machine S × List (Event S) :=
  if m.current = st then
    let m1 := { m with activeTimers := mapDelete m.activeTimers st }
    match cfg.onExpire with
    | some h => (m1, [Event.expireCall h st])
    | none =>
        match cfg.expireTo with
        | some tgt =>
            if canTransition m1 tgt then goB fuel m1 tgt
            else (m1, [Event.warnExpire st tgt])
        | none => (m1, [])
  else (m, [])

/-- The host event loop firing the pending timer with id `tid`: remove it from
the pending queue, then run `_handleStateExpiration` on its captured state and
config.  No-op if no such timer is pending. -/
def fireTimer {S : Type} [DecidableEq S] (fuel : Nat) (m : Machine S) (tid : Nat) :
    Machine S × List (Event S) :=
  match m.pending.find? (fun p => decide (p.tid = tid)) with
  | none => (m, [])
  | some p =>
      let m1 := { m with pending := m.pending.filter (fun q => decide ¬(q.tid = tid)) }
      handleStateExpiration fuel m1 p.state p.config

/-- `TSM.reset()`. -/
def reset {S : Type} [DecidableEq S] (m : Machine S) : Machine S × List (Event S) :=
  let m1 := clearAllTimeouts m
  let m2 := { m1 with previous := m1.initial, current := m1.initial }
  startStateTimeout m2 m2.initial

/-- `TSM.on(to, callback)`: register unless already present (the source
compares function references with `includes`). -/
def onState {S : Type} [DecidableEq S] (m : Machine S) (toSt : S) (cb : Cb S) : Machine S :=
  let m1 :=
    if (mapGet m.cbMap toSt).isSome then m
    else { m with cbMap := mapSet m.cbMap toSt [] }
  match mapGet m1.cbMap toSt with
  | none => m1
  | some l =>
      if cb ∈ l then m1
      else { m1 with cbMap := mapSet m1.cbMap toSt (l ++ [cb]) }

/-- The argument object of `TSM.setStateTimeout`. -/
structure StateTimeoutOptions (S : Type) where
  timeoutMs : Int
  expireTo : Option S
  onExpire : Option Nat
deriving DecidableEq, Repr

/-- The two `Error`s `TSM.setStateTimeout` can throw, by message. -/
inductive TimeoutErr where
  | nonPositiveTimeout
  | missingTarget
deriving DecidableEq, Repr

/-- Is an optional state falsy in the JS sense (`!options.expireTo`)?  Absent
values are falsy; a present state is falsy according to the caller's domain
(`falsy` says which runtime state values JS treats as falsy, e.g. the number 0
or the empty string). -/
def optionFalsy {S : Type} (falsy : S → Bool) : Option S → Bool
  | none => true
  | some s => falsy s

/-- `TSM.setStateTimeout(state, options)`.  The guard `!options.expireTo`
is JS truthiness on the state value, so it is parameterized by `falsy`. -/
def setStateTimeout {S : Type} [DecidableEq S] (falsy : S → Bool) (m : Machine S) (st : S)
    (opts : StateTimeoutOptions S) : Except TimeoutErr (Machine S × List (Event S)) :=
  if opts.timeoutMs ≤ 0 then Except.error TimeoutErr.nonPositiveTimeout
  else if optionFalsy falsy opts.expireTo && opts.onExpire.isNone then
    Except.error TimeoutErr.missingTarget
  else
    let m1 := { m with
      timeoutConfigs := mapSet m.timeoutConfigs st
        { timeoutMs := opts.timeoutMs, expireTo := opts.expireTo, onExpire := opts.onExpire } }
    if m1.current = st then Except.ok (startStateTimeout m1 st)
    else Except.ok (m1, [])

/-- `TSM.clearStateTimeout(state)`: remove the config and clear any timer. -/
def clearStateTimeout {S : Type} [DecidableEq S] (m : Machine S) (st : S) :
    Machine S × List (Event S) :=
  let m1 := { m with timeoutConfigs := mapDelete m.timeoutConfigs st }
  clearStateTimeoutI m1 st

/-- A primitive JavaScript runtime value. -/
inductive JSPrim where
  | pnum : Int → JSPrim
  | pstr : String → JSPrim
  | pbool : Bool → JSPrim
  | pnull : JSPrim
deriving DecidableEq, Repr

/-- A JavaScript runtime value, as far as `addTransitions`'s duck-typed
options detection can distinguish them: `typeof x === 'object'` holds for
objects, arrays and `null`; `Array.isArray` singles out arrays; `'loop' in x`
asks for a property on an object.  Domain states passed by callers are such
values too (strings, numbers, or even objects).  Array elements and object
property values are modelled one level deep (as primitives): that is all
`addTransitions` ever inspects. -/
inductive JSVal where
  | prim : JSPrim → JSVal
  | arr : List JSPrim → JSVal
  | obj : List (String × JSPrim) → JSVal
deriving DecidableEq, Repr

/-- JS truthiness of a primitive (`0`, the empty string, `false`, `null` and
`undefined` are falsy). -/
def JSPrim.truthy : JSPrim → Bool
  | JSPrim.pnum n => decide ¬(n = 0)
  | JSPrim.pstr s => decide ¬(s = "")
  | JSPrim.pbool b => b
  | JSPrim.pnull => false

/-- JS truthiness of a value: objects and arrays are always truthy. -/
def JSVal.truthy : JSVal → Bool
  | JSVal.prim p => p.truthy
  | JSVal.arr _ => true
  | JSVal.obj _ => true

/-- The property key the options check looks for. -/
def loopKey : String := "loop"

/-- The options test of `addTransitions` on its last argument:
`typeof lastArg === 'object' && lastArg !== null && !Array.isArray(lastArg)
&& 'loop' in lastArg`. -/
def isOptionsObj (v : JSVal) : Bool :=
  match v with
  | JSVal.obj fields => fields.any (fun f => decide (f.1 = loopKey))
  | _ => false

/-- `options.loop ?? false`, then used as a condition: the extracted loop
flag of an options argument (absent and `null`/`undefined` mean `false`,
otherwise the property value's truthiness). -/
def loopFlagTruthy (v : JSVal) : Bool :=
  match v with
  | JSVal.obj fields =>
      match (fields.find? (fun f => decide (f.1 = loopKey))).map (fun f => f.2) with
      | none => false
      | some JSPrim.pnull => false
      | some p => p.truthy
  | _ => false

/-- The per-target loop of `addTransitions`: `addFromState(from, to)` and,
when the loop flag is set, also `addFromState(to, from)`. -/
def addTargets {S : Type} [DecidableEq S] (f : S) (loop : Bool) :
    List S → Machine S → Machine S
  | [], m => m
  | t :: rest, m =>
      let m1 := addFromState m f t
      let m2 := if loop then addFromState m1 t f else m1
      addTargets f loop rest m2

/-- `TSM.addTransitions(from, ...args)` at the JS runtime level: if the last
argument passes the options test it is consumed as options and only the
remaining arguments become targets, otherwise every argument is a target and
the loop flag defaults to false. -/
def addTransitions (m : Machine JSVal) (f : JSVal) (args : List JSVal) : Machine JSVal :=
  match args.getLast? with
  | some la =>
      if isOptionsObj la then addTargets f (loopFlagTruthy la) args.dropLast m
      else addTargets f false args m
  | none => addTargets f false args m

/-- Append an element to a list unless already present (the effect of the
guarded `push` in `addFromState`). -/
def pushUnique {S : Type} [DecidableEq S] (l : List S) (x : S) : List S :=
  if x ∈ l then l else l ++ [x]

/-- The node a graph lookup falls back to: the stored node, or a fresh one. -/
def nodeOr {S : Type} [DecidableEq S] (tr : List (S × Transitions S)) (s : S) : Transitions S :=
  (mapGet tr s).getD { state := s, fromStates := [], toStates := [] }

theorem mapGet_ensureNode_self {S : Type} [DecidableEq S] (tr : List (S × Transitions S))
    (s : S) : mapGet (ensureNode tr s) s = some (nodeOr tr s) := by
  cases h : mapGet tr s with
  | none => simp [ensureNode, h, mapGet_set_self, nodeOr]
  | some nd => simp [ensureNode, h, nodeOr]

theorem mapGet_ensureNode_ne {S : Type} [DecidableEq S] (tr : List (S × Transitions S))
    (s x : S) (h : s ≠ x) : mapGet (ensureNode tr s) x = mapGet tr x := by
  cases hg : mapGet tr s with
  | none => simp [ensureNode, hg, mapGet_set_ne _ _ _ _ h]
  | some nd => simp [ensureNode, hg]

theorem mapGet_upsertTo_self {S : Type} [DecidableEq S] (tr : List (S × Transitions S))
    (f t : S) :
    mapGet (upsertTo tr f t) f =
      some { nodeOr tr f with toStates := pushUnique (nodeOr tr f).toStates t } := by
  have hself := mapGet_ensureNode_self tr f
  simp only [upsertTo]
  rw [hself]
  by_cases hm : t ∈ (nodeOr tr f).toStates
  · simp [hm, pushUnique, hself]
  · simp [hm, pushUnique, mapGet_set_self]

theorem mapGet_upsertTo_ne {S : Type} [DecidableEq S] (tr : List (S × Transitions S))
    (f t x : S) (h : f ≠ x) :
    mapGet (upsertTo tr f t) x = mapGet tr x := by
  have hself := mapGet_ensureNode_self tr f
  have hne := mapGet_ensureNode_ne tr f x h
  simp only [upsertTo]
  rw [hself]
  by_cases hm : t ∈ (nodeOr tr f).toStates
  · simp [hm, hne]
  · simp [hm, mapGet_set_ne _ _ _ _ h, hne]

theorem mapGet_upsertFrom_self {S : Type} [DecidableEq S] (tr : List (S × Transitions S))
    (f t : S) :
    mapGet (upsertFrom tr f t) t =
      some { nodeOr tr t with fromStates := pushUnique (nodeOr tr t).fromStates f } := by
  have hself := mapGet_ensureNode_self tr t
  simp only [upsertFrom]
  rw [hself]
  by_cases hm : f ∈ (nodeOr tr t).fromStates
  · simp [hm, pushUnique, hself]
  · simp [hm, pushUnique, mapGet_set_self]

theorem mapGet_upsertFrom_ne {S : Type} [DecidableEq S] (tr : List (S × Transitions S))
    (f t x : S) (h : t ≠ x) :
    mapGet (upsertFrom tr f t) x = mapGet tr x := by
  have hself := mapGet_ensureNode_self tr t
  have hne := mapGet_ensureNode_ne tr t x h
  simp only [upsertFrom]
  rw [hself]
  by_cases hm : f ∈ (nodeOr tr t).fromStates
  · simp [hm, hne]
  · simp [hm, mapGet_set_ne _ _ _ _ h, hne]

theorem nodeOr_upsertTo {S : Type} [DecidableEq S] (tr : List (S × Transitions S)) (a b x : S) :
    nodeOr (upsertTo tr a b) x =
      if x = a then { nodeOr tr a with toStates := pushUnique (nodeOr tr a).toStates b }
      else nodeOr tr x := by
  by_cases h : x = a
  · subst h
    simp [nodeOr, mapGet_upsertTo_self]
  · have := mapGet_upsertTo_ne tr a b x (fun e => h e.symm)
    simp [nodeOr, this, h]

/-- The transition-graph lookup after `addFromState`, for every key. -/
theorem addFromState_node {S : Type} [DecidableEq S] (m : Machine S) (a b x : S) :
    mapGet (addFromState m a b).transitions x =
      (if x = b then
        some { nodeOr (upsertTo m.transitions a b) b with
               fromStates := pushUnique (nodeOr (upsertTo m.transitions a b) b).fromStates a }
      else if x = a then
        some { nodeOr m.transitions a with
               toStates := pushUnique (nodeOr m.transitions a).toStates b }
      else mapGet m.transitions x) := by
  show mapGet (upsertFrom (upsertTo m.transitions a b) a b) x = _
  by_cases hb : x = b
  · subst hb
    simp [mapGet_upsertFrom_self]
  · have h1 := mapGet_upsertFrom_ne (upsertTo m.transitions a b) a b x (fun e => hb e.symm)
    rw [h1]
    by_cases ha : x = a
    · subst ha
      simp [mapGet_upsertTo_self, hb, nodeOr]
    · have h2 := mapGet_upsertTo_ne m.transitions a b x (fun e => ha e.symm)
      simp [h2, hb, ha]

theorem mem_pushUnique_self {S : Type} [DecidableEq S] (l : List S) (x : S) :
    x ∈ pushUnique l x := by
  by_cases h : x ∈ l <;> simp [pushUnique, h]

theorem mem_pushUnique_of_mem {S : Type} [DecidableEq S] (l : List S) (x y : S) (h : y ∈ l) :
    y ∈ pushUnique l x := by
  by_cases hx : x ∈ l <;> simp [pushUnique, hx, h]

theorem mem_pushUnique_iff {S : Type} [DecidableEq S] (l : List S) (x y : S) :
    y ∈ pushUnique l x ↔ y ∈ l ∨ y = x := by
  by_cases hx : x ∈ l
  · simp [pushUnique, hx]
    intro e
    subst e
    exact hx
  · simp [pushUnique, hx]

/-- The edge `f → t` written on the from-node's side. -/
def edgeTo {S : Type} [DecidableEq S] (m : Machine S) (f t : S) : Prop :=
  ∃ nd, mapGet m.transitions f = some nd ∧ t ∈ nd.toStates

/-- The edge `f → t` written on the to-node's side. -/
def edgeFr {S : Type} [DecidableEq S] (m : Machine S) (f t : S) : Prop :=
  ∃ nd, mapGet m.transitions t = some nd ∧ f ∈ nd.fromStates

theorem hasEdgeB_iff_edgeTo {S : Type} [DecidableEq S] (m : Machine S) (f t : S) :
    hasEdgeB m f t = true ↔ edgeTo m f t := by
  unfold hasEdgeB edgeTo
  cases h : mapGet m.transitions f <;> simp

theorem edgeRecordedB_iff {S : Type} [DecidableEq S] (m : Machine S) (f t : S) :
    edgeRecordedB m f t = true ↔ edgeTo m f t ∧ edgeFr m f t := by
  unfold edgeRecordedB edgeFr
  rw [Bool.and_eq_true, hasEdgeB_iff_edgeTo]
  cases h : mapGet m.transitions t <;> simp

theorem edgeTo_addFromState_self {S : Type} [DecidableEq S] (m : Machine S) (f t : S) :
    edgeTo (addFromState m f t) f t := by
  rw [edgeTo]
  rw [addFromState_node]
  by_cases h : f = t
  · subst h
    simp [nodeOr_upsertTo]
    exact mem_pushUnique_self _ _
  · simp [h]
    exact mem_pushUnique_self _ _

theorem edgeFr_addFromState_self {S : Type} [DecidableEq S] (m : Machine S) (f t : S) :
    edgeFr (addFromState m f t) f t := by
  rw [edgeFr]
  rw [addFromState_node]
  simp
  exact mem_pushUnique_self _ _

theorem edgeTo_addFromState_mono {S : Type} [DecidableEq S] (m : Machine S) (a b x y : S)
    (h : edgeTo m x y) : edgeTo (addFromState m a b) x y := by
  obtain ⟨nd, hg, hm⟩ := h
  rw [edgeTo, addFromState_node]
  by_cases hb : x = b
  · subst hb
    rw [if_pos rfl]
    refine ⟨_, rfl, ?_⟩
    show y ∈ (nodeOr (upsertTo m.transitions a x) x).toStates
    rw [nodeOr_upsertTo]
    by_cases ha : x = a
    · rw [if_pos ha]
      show y ∈ pushUnique (nodeOr m.transitions a).toStates x
      rw [← ha]
      rw [nodeOr, hg]
      exact mem_pushUnique_of_mem _ _ _ hm
    · rw [if_neg ha, nodeOr, hg]
      exact hm
  · rw [if_neg hb]
    by_cases ha : x = a
    · rw [if_pos ha]
      refine ⟨_, rfl, ?_⟩
      show y ∈ pushUnique (nodeOr m.transitions a).toStates b
      rw [← ha, nodeOr, hg]
      exact mem_pushUnique_of_mem _ _ _ hm
    · rw [if_neg ha]
      exact ⟨nd, hg, hm⟩

theorem edgeFr_addFromState_mono {S : Type} [DecidableEq S] (m : Machine S) (a b x y : S)
    (h : edgeFr m x y) : edgeFr (addFromState m a b) x y := by
  obtain ⟨nd, hg, hm⟩ := h
  rw [edgeFr, addFromState_node]
  by_cases hb : y = b
  · subst hb
    rw [if_pos rfl]
    refine ⟨_, rfl, ?_⟩
    show x ∈ pushUnique (nodeOr (upsertTo m.transitions a y) y).fromStates a
    rw [nodeOr_upsertTo]
    by_cases ha : y = a
    · rw [if_pos ha]
      show x ∈ pushUnique (nodeOr m.transitions a).fromStates a
      rw [← ha, nodeOr, hg]
      exact mem_pushUnique_of_mem _ _ _ hm
    · rw [if_neg ha, nodeOr, hg]
      exact mem_pushUnique_of_mem _ _ _ hm
  · rw [if_neg hb]
    by_cases ha : y = a
    · rw [if_pos ha]
      refine ⟨_, rfl, ?_⟩
      show x ∈ (nodeOr m.transitions a).fromStates
      rw [← ha, nodeOr, hg]
      exact hm
    · rw [if_neg ha]
      exact ⟨nd, hg, hm⟩

theorem addFromState_of_recorded {S : Type} [DecidableEq S] (m : Machine S) (f t : S)
    (h : edgeRecordedB m f t = true) : addFromState m f t = m := by
  rw [edgeRecordedB_iff] at h
  obtain ⟨⟨nf, hgf, hmf⟩, ⟨nt, hgt, hmt⟩⟩ := h
  have h1 : upsertTo m.transitions f t = m.transitions := by
    simp only [upsertTo, ensureNode, hgf, Option.isSome_some, if_true, hmf]
  have h2 : upsertFrom m.transitions f t = m.transitions := by
    simp only [upsertFrom, ensureNode, hgt, Option.isSome_some, if_true, hmt]
  show { m with transitions := upsertFrom (upsertTo m.transitions f t) f t } = m
  rw [h1, h2]

theorem edgeRecordedB_addFromState_self {S : Type} [DecidableEq S] (m : Machine S) (f t : S) :
    edgeRecordedB (addFromState m f t) f t = true := by
  rw [edgeRecordedB_iff]
  exact ⟨edgeTo_addFromState_self m f t, edgeFr_addFromState_self m f t⟩

theorem edgeRecordedB_addFromState_mono {S : Type} [DecidableEq S] (m : Machine S) (a b x y : S)
    (h : edgeRecordedB m x y = true) : edgeRecordedB (addFromState m a b) x y = true := by
  rw [edgeRecordedB_iff] at h ⊢
  exact ⟨edgeTo_addFromState_mono m a b x y h.1, edgeFr_addFromState_mono m a b x y h.2⟩

theorem addFromState_idem {S : Type} [DecidableEq S] (m : Machine S) (f t : S) :
    addFromState (addFromState m f t) f t = addFromState m f t :=
  addFromState_of_recorded _ f t (edgeRecordedB_addFromState_self m f t)

theorem edgeTo_of_mem_nodeOr {S : Type} [DecidableEq S] (m : Machine S) (x y : S)
    (h : y ∈ (nodeOr m.transitions x).toStates) : edgeTo m x y := by
  rw [nodeOr] at h
  cases hg : mapGet m.transitions x with
  | none => rw [hg] at h; simp at h
  | some nd => rw [hg] at h; exact ⟨nd, hg, h⟩

theorem not_edgeTo_addFromState {S : Type} [DecidableEq S] (m : Machine S) (a b x y : S)
    (h : ¬ edgeTo m x y) (hne : ¬(a = x ∧ b = y)) :
    ¬ edgeTo (addFromState m a b) x y := by
  rintro ⟨nd', hg', hm'⟩
  rw [addFromState_node] at hg'
  by_cases hb : x = b
  · rw [if_pos hb] at hg'
    cases hg'
    rw [show ({ nodeOr (upsertTo m.transitions a b) b with
          fromStates := pushUnique (nodeOr (upsertTo m.transitions a b) b).fromStates a
          } : Transitions S).toStates = (nodeOr (upsertTo m.transitions a b) b).toStates
        from rfl] at hm'
    rw [nodeOr_upsertTo] at hm'
    by_cases hba : b = a
    · rw [if_pos hba] at hm'
      rw [show ({ nodeOr m.transitions a with
            toStates := pushUnique (nodeOr m.transitions a).toStates b } :
            Transitions S).toStates = pushUnique (nodeOr m.transitions a).toStates b
          from rfl] at hm'
      rcases (mem_pushUnique_iff _ _ _).mp hm' with hold | hyb
      · exact h (edgeTo_of_mem_nodeOr m x y (by rw [← hba, ← hb] at hold; exact hold))
      · exact hne ⟨by rw [hba.symm, hb.symm], by rw [hyb]⟩
    · rw [if_neg hba] at hm'
      rw [← hb] at hm'
      exact h (edgeTo_of_mem_nodeOr m x y hm')
  · rw [if_neg hb] at hg'
    by_cases ha : x = a
    · rw [if_pos ha] at hg'
      cases hg'
      rw [show ({ nodeOr m.transitions a with
            toStates := pushUnique (nodeOr m.transitions a).toStates b } :
            Transitions S).toStates = pushUnique (nodeOr m.transitions a).toStates b
          from rfl] at hm'
      rcases (mem_pushUnique_iff _ _ _).mp hm' with hold | hyb
      · rw [← ha] at hold
        exact h (edgeTo_of_mem_nodeOr m x y hold)
      · exact hne ⟨ha.symm, hyb.symm⟩
    · rw [if_neg ha] at hg'
      exact h ⟨nd', hg', hm'⟩

theorem addFromState_toStates {S : Type} [DecidableEq S] (m : Machine S) (f t : S) :
    (mapGet (addFromState m f t).transitions f).map Transitions.toStates =
      some (pushUnique (nodeOr m.transitions f).toStates t) := by
  rw [addFromState_node]
  by_cases h : f = t
  · rw [if_pos h]
    show some (nodeOr (upsertTo m.transitions f t) t).toStates = _
    rw [nodeOr_upsertTo, if_pos h.symm]
  · rw [if_neg h, if_pos rfl]
    rfl

theorem addFromState_fromStates {S : Type} [DecidableEq S] (m : Machine S) (f t : S) :
    (mapGet (addFromState m f t).transitions t).map Transitions.fromStates =
      some (pushUnique (nodeOr m.transitions t).fromStates f) := by
  rw [addFromState_node, if_pos rfl]
  show some (pushUnique (nodeOr (upsertTo m.transitions f t) t).fromStates f) = _
  rw [nodeOr_upsertTo]
  by_cases h : t = f
  · rw [if_pos h]
    show some (pushUnique (nodeOr m.transitions f).fromStates f) = _
    rw [h]
  · rw [if_neg h]

theorem addTargets_cons {S : Type} [DecidableEq S] (f : S) (lp : Bool) (t : S)
    (rest : List S) (m : Machine S) :
    addTargets f lp (t :: rest) m =
      addTargets f lp rest
        (if lp = true then addFromState (addFromState m f t) t f else addFromState m f t) :=
  rfl

theorem addTargets_mono {S : Type} [DecidableEq S] (f : S) (lp : Bool) (ts : List S)
    (m : Machine S) (x y : S) (h : edgeRecordedB m x y = true) :
    edgeRecordedB (addTargets f lp ts m) x y = true := by
  induction ts generalizing m with
  | nil => exact h
  | cons t rest ih =>
      rw [addTargets_cons]
      apply ih
      cases lp with
      | false => simpa using edgeRecordedB_addFromState_mono _ _ _ _ _ h
      | true =>
          simp only [if_pos rfl]
          exact edgeRecordedB_addFromState_mono _ _ _ _ _
            (edgeRecordedB_addFromState_mono _ _ _ _ _ h)

theorem addTargets_all {S : Type} [DecidableEq S] (f : S) (lp : Bool) (ts : List S)
    (m : Machine S) : ∀ t ∈ ts,
    edgeRecordedB (addTargets f lp ts m) f t = true ∧
      (lp = true → edgeRecordedB (addTargets f lp ts m) t f = true) := by
  induction ts generalizing m with
  | nil => intro t ht; simp at ht
  | cons t0 rest ih =>
      intro t ht
      rcases List.mem_cons.mp ht with he | hr
      · subst he
        rw [addTargets_cons]
        constructor
        · apply addTargets_mono
          cases lp with
          | false => simpa using edgeRecordedB_addFromState_self m f t
          | true =>
              simp only [if_pos rfl]
              exact edgeRecordedB_addFromState_mono _ _ _ _ _
                (edgeRecordedB_addFromState_self m f t)
        · intro hlp
          subst hlp
          apply addTargets_mono
          simp only [if_pos rfl]
          exact edgeRecordedB_addFromState_self _ t f
      · rw [addTargets_cons]
        exact ih _ t hr

theorem addTargets_id {S : Type} [DecidableEq S] (f : S) (lp : Bool) (ts : List S)
    (m : Machine S)
    (h : ∀ t ∈ ts, edgeRecordedB m f t = true ∧ (lp = true → edgeRecordedB m t f = true)) :
    addTargets f lp ts m = m := by
  induction ts with
  | nil => rfl
  | cons t rest ih =>
      have ht := h t (List.mem_cons_self _ _)
      have h1 : addFromState m f t = m := addFromState_of_recorded m f t ht.1
      rw [addTargets_cons]
      cases lp with
      | false =>
          simp only [Bool.false_eq_true, if_false, h1]
          exact ih (fun t' ht' => h t' (List.mem_cons_of_mem _ ht'))
      | true =>
          rw [if_pos rfl, h1, addFromState_of_recorded m t f (ht.2 rfl)]
          exact ih (fun t' ht' => h t' (List.mem_cons_of_mem _ ht'))

theorem addTargets_idem {S : Type} [DecidableEq S] (f : S) (lp : Bool) (ts : List S)
    (m : Machine S) : addTargets f lp ts (addTargets f lp ts m) = addTargets f lp ts m :=
  addTargets_id f lp ts _ (addTargets_all f lp ts m)

theorem not_edgeTo_addTargets {S : Type} [DecidableEq S] (f : S) (lp : Bool) (ts : List S)
    (m : Machine S) (la : S) (h : ¬ edgeTo m f la) (hts : la ∉ ts) (hf : la ≠ f) :
    ¬ edgeTo (addTargets f lp ts m) f la := by
  induction ts generalizing m with
  | nil => exact h
  | cons t rest ih =>
      rw [addTargets_cons]
      have hla_t : la ≠ t := fun e => hts (by rw [e]; exact List.mem_cons_self _ _)
      have h1 : ¬ edgeTo (addFromState m f t) f la :=
        not_edgeTo_addFromState m f t f la h (fun hc => hla_t hc.2.symm)
      have h2 : ¬ edgeTo (if lp then addFromState (addFromState m f t) t f
          else addFromState m f t) f la := by
        cases lp with
        | false => simpa using h1
        | true =>
            simp only [if_pos rfl]
            exact not_edgeTo_addFromState _ t f f la h1 (fun hc => hf hc.2.symm)
      exact ih _ h2 (fun hc => hts (List.mem_cons_of_mem _ hc))

/-- C1: when no edge from the current state to the target exists,
`canTransition` is false; `go` without `throwOnInvalid` returns the unchanged
current state with no mutation, callback, or timer change (machine identical,
empty event trace); and `go` with `throwOnInvalid` fails with the invalid
transition error carrying the current state, the target, and the valid-target
list, likewise leaving everything unchanged. -/
theorem go_invalid_rejects {S : Type} [DecidableEq S] (fuel : Nat) (m : Machine S)
    (target : S) (h : hasEdgeB m m.current target = false) :
    canTransition m target = false ∧
    go (fuel + 1) m target false = (m, [], Except.ok m.current) ∧
    go (fuel + 1) m target true =
      (m, [], Except.error { current := m.current, target := target,
                             valid := getValidTransitions m }) := by
  have hc : canTransition m target = false := h
  refine ⟨hc, ?_, ?_⟩ <;> simp [go, hc]

def mW1 : Machine Nat := addTransition (mkTSM 0) 0 1 false

theorem go_invalid_rejects_witness :
    hasEdgeB mW1 mW1.current 2 = false ∧
    (canTransition mW1 2 = false ∧
     go 1 mW1 2 false = (mW1, [], Except.ok mW1.current) ∧
     go 1 mW1 2 true =
       (mW1, [], Except.error { current := mW1.current, target := 2,
                                valid := getValidTransitions mW1 })) :=
  ⟨by decide, go_invalid_rejects 0 mW1 2 (by decide)⟩

/-- C7: edge insertion is idempotent.  Once an edge is recorded on both
endpoints, `addFromState` is the identity; one `addFromState` records it;
hence repeating the insertion through `addFromState`, `addTransition`,
`addPath`, or `addTransitions` yields exactly the same graph, and each single
insertion appends to `toStates`/`fromStates` only when not already present,
at the end (preserving insertion order). -/
theorem edge_insertion_idempotent {S : Type} [DecidableEq S] :
    (∀ (m : Machine S) (f t : S), edgeRecordedB m f t = true → addFromState m f t = m) ∧
    (∀ (m : Machine S) (f t : S), edgeRecordedB (addFromState m f t) f t = true) ∧
    (∀ (m : Machine S) (f t : S), addFromState (addFromState m f t) f t = addFromState m f t) ∧
    (∀ (m : Machine S) (f t : S) (lp : Bool),
      addTransition (addTransition m f t lp) f t lp = addTransition m f t lp) ∧
    (∀ (m : Machine S) (a b : S), addPath (addPath m [a, b]) [a, b] = addPath m [a, b]) ∧
    (∀ (m : Machine JSVal) (f : JSVal) (args : List JSVal),
      addTransitions (addTransitions m f args) f args = addTransitions m f args) ∧
    (∀ (m : Machine S) (f t : S),
      (mapGet (addFromState m f t).transitions f).map Transitions.toStates =
        some (pushUnique (nodeOr m.transitions f).toStates t)) ∧
    (∀ (m : Machine S) (f t : S),
      (mapGet (addFromState m f t).transitions t).map Transitions.fromStates =
        some (pushUnique (nodeOr m.transitions t).fromStates f)) := by
  refine ⟨addFromState_of_recorded, edgeRecordedB_addFromState_self, addFromState_idem,
    ?_, ?_, ?_, addFromState_toStates, addFromState_fromStates⟩
  · intro m f t lp
    cases lp with
    | false =>
        show addFromState (addFromState m f t) f t = addFromState m f t
        exact addFromState_idem m f t
    | true =>
        show addFromState (addFromState (addFromState (addFromState m f t) t f) f t) t f = _
        rw [addFromState_of_recorded _ f t
          (edgeRecordedB_addFromState_mono _ _ _ _ _ (edgeRecordedB_addFromState_self m f t))]
        rw [addFromState_of_recorded _ t f (edgeRecordedB_addFromState_self _ t f)]
        rfl
  · intro m a b
    show addFromState (addFromState m a b) a b = addFromState m a b
    exact addFromState_idem m a b
  · intro m f args
    unfold addTransitions
    cases hl : args.getLast? with
    | none => cases args <;> simp_all [addTargets]
    | some la =>
        by_cases ho : isOptionsObj la = true
        · simp only [ho, if_true]
          exact addTargets_idem _ _ _ _
        · have ho' : isOptionsObj la = false := by
            revert ho; cases isOptionsObj la <;> simp
          simp only [ho', Bool.false_eq_true, if_false]
          exact addTargets_idem _ _ _ _

theorem edge_insertion_idempotent_witness :
    edgeRecordedB mW1 0 1 = true ∧ addFromState mW1 0 1 = mW1 :=
  ⟨by decide, (@edge_insertion_idempotent Nat _).1 mW1 0 1 (by decide)⟩

/-- C10: in `addTransitions(from, ...args)` the last argument is consumed as
the options object exactly when it is a non-null, non-array object with a
`loop` property: in that case only the remaining arguments become targets
(with the extracted loop flag applied to all of them) and no edge
`from → lastArg` is created; otherwise every argument, the last included,
becomes a target with no loop.  A caller whose object-valued state carries a
`loop` property therefore cannot pass it as the final target. -/
theorem addTransitions_options_detection (m : Machine JSVal) (f : JSVal)
    (args : List JSVal) (la : JSVal) (hl : args.getLast? = some la) :
    (isOptionsObj la = true →
      addTransitions m f args = addTargets f (loopFlagTruthy la) args.dropLast m ∧
      (hasEdgeB m f la = false → la ∉ args.dropLast → la ≠ f →
        hasEdgeB (addTransitions m f args) f la = false)) ∧
    (isOptionsObj la = false →
      addTransitions m f args = addTargets f false args m) := by
  constructor
  · intro ho
    have he : addTransitions m f args = addTargets f (loopFlagTruthy la) args.dropLast m := by
      unfold addTransitions
      rw [hl]
      simp [ho]
    refine ⟨he, ?_⟩
    intro hne hmem hnef
    rw [he]
    have h0 : ¬ edgeTo m f la := fun hc => by
      have hb := (hasEdgeB_iff_edgeTo m f la).mpr hc
      rw [hne] at hb
      exact Bool.false_ne_true hb
    have hno := not_edgeTo_addTargets f (loopFlagTruthy la) args.dropLast m la h0 hmem hnef
    exact Bool.eq_false_iff.mpr
      (fun hc => hno ((hasEdgeB_iff_edgeTo _ _ _).mp hc))
  · intro ho
    unfold addTransitions
    rw [hl]
    simp [ho]

def jA : JSVal := JSVal.prim (JSPrim.pstr ("A"))

def jB : JSVal := JSVal.prim (JSPrim.pstr ("B"))

def jOpt : JSVal := JSVal.obj [(loopKey, JSPrim.pbool true)]

theorem addTransitions_options_detection_witness :
    ([jB, jOpt].getLast? = some jOpt) ∧ isOptionsObj jOpt = true ∧
    hasEdgeB (mkTSM jA) jA jOpt = false ∧
    (addTransitions (mkTSM jA) jA [jB, jOpt] =
      addTargets jA (loopFlagTruthy jOpt) [jB, jOpt].dropLast (mkTSM jA)) ∧
    hasEdgeB (addTransitions (mkTSM jA) jA [jB, jOpt]) jA jOpt = false :=
  ⟨by decide, by decide, by decide,
   ((addTransitions_options_detection (mkTSM jA) jA [jB, jOpt] jOpt (by decide)).1
     (by decide)).1,
   ((addTransitions_options_detection (mkTSM jA) jA [jB, jOpt] jOpt (by decide)).1
     (by decide)).2 (by decide) (by decide) (by decide)⟩

/-- The committing branch of `go` (steps a–d of the protocol), named for the
transition theorems: disarm the left state's timer, update
`previous`/`current`, dispatch the target's callbacks, arm the target's
timer, return the resulting `current`. -/
def goCommit {S : Type} [DecidableEq S] (fuel : Nat) (m : Machine S) (target : S) :
    Machine S × List (Event S) × Except (GoErr S) S :=
  let r1 := clearStateTimeoutI m m.current
  let m2 := { r1.1 with previous := r1.1.current, current := target }
  let r3 := dispatchCbs (goB fuel) target ((mapGet m2.cbMap target).getD []) m2
  let r4 := startStateTimeout r3.1 target
  (r4.1, r1.2 ++ (r3.2 ++ r4.2), Except.ok r4.1.current)

theorem go_succ_valid {S : Type} [DecidableEq S] (fuel : Nat) (m : Machine S) (target : S)
    (thr : Bool) (h : canTransition m target = true) :
    go (fuel + 1) m target thr = goCommit fuel m target := by
  simp only [go, h, if_true]
  rfl

theorem clearStateTimeoutI_shape {S : Type} [DecidableEq S] (m : Machine S) (s : S) :
    ∃ pnd act, (clearStateTimeoutI m s).1 = { m with pending := pnd, activeTimers := act } := by
  cases h : mapGet m.activeTimers s with
  | none => exact ⟨m.pending, m.activeTimers, by simp [clearStateTimeoutI, h]⟩
  | some tid =>
      exact ⟨m.pending.filter (fun p => decide ¬(p.tid = tid)), mapDelete m.activeTimers s,
        by simp [clearStateTimeoutI, h]⟩

theorem clearStateTimeoutI_timers_self {S : Type} [DecidableEq S] (m : Machine S) (s : S) :
    mapGet (clearStateTimeoutI m s).1.activeTimers s = none := by
  cases h : mapGet m.activeTimers s with
  | none => simp [clearStateTimeoutI, h]
  | some tid => simp [clearStateTimeoutI, h, mapGet_delete_self]

theorem clearStateTimeoutI_timers_ne {S : Type} [DecidableEq S] (m : Machine S) (s x : S)
    (h : s ≠ x) :
    mapGet (clearStateTimeoutI m s).1.activeTimers x = mapGet m.activeTimers x := by
  cases hg : mapGet m.activeTimers s with
  | none => simp [clearStateTimeoutI, hg]
  | some tid => simp [clearStateTimeoutI, hg, mapGet_delete_ne _ _ _ h]

/-- C2: on a valid transition, `go` performs exactly, and in exactly this
order, (a) disarm the timer of the state being left (and only that state's
timer), (b) set `previous` to the old current and `current` to the target,
(c) dispatch the callbacks registered for the target in registration order
with `(previous, target)`, (d) arm the target's timer if a config exists —
and it returns the machine's resulting current state. -/
theorem go_commit_ordered {S : Type} [DecidableEq S] (fuel : Nat) (m : Machine S)
    (target : S) (thr : Bool) (h : canTransition m target = true) :
    go (fuel + 1) m target thr = goCommit fuel m target ∧
    ({ (clearStateTimeoutI m m.current).1 with
        previous := (clearStateTimeoutI m m.current).1.current,
        current := target } : Machine S).previous = m.current ∧
    ({ (clearStateTimeoutI m m.current).1 with
        previous := (clearStateTimeoutI m m.current).1.current,
        current := target } : Machine S).current = target ∧
    (clearStateTimeoutI m m.current).1.current = m.current ∧
    (clearStateTimeoutI m m.current).1.previous = m.previous ∧
    (clearStateTimeoutI m m.current).1.cbMap = m.cbMap ∧
    (clearStateTimeoutI m m.current).1.transitions = m.transitions ∧
    (clearStateTimeoutI m m.current).1.timeoutConfigs = m.timeoutConfigs ∧
    mapGet (clearStateTimeoutI m m.current).1.activeTimers m.current = none ∧
    (∀ s, s ≠ m.current →
      mapGet (clearStateTimeoutI m m.current).1.activeTimers s = mapGet m.activeTimers s) ∧
    (goCommit fuel m target).2.2 = Except.ok (goCommit fuel m target).1.current := by
  obtain ⟨pnd, act, hshape⟩ := clearStateTimeoutI_shape m m.current
  refine ⟨go_succ_valid fuel m target thr h, ?_, ?_, ?_, ?_, ?_, ?_, ?_,
    clearStateTimeoutI_timers_self m m.current,
    (fun s hs => clearStateTimeoutI_timers_ne m m.current s (fun e => hs e.symm)), rfl⟩
  all_goals rw [hshape]

def mW2 : Machine Nat :=
  { onState (addTransition (addTransition (mkTSM 0) 0 1 false) 1 2 false) 1
      { id := 7, acts := [] } with
    timeoutConfigs := [(1, { timeoutMs := 100, expireTo := some 2, onExpire := none })] }

theorem go_commit_ordered_witness :
    canTransition mW2 1 = true ∧ go 1 mW2 1 false = goCommit 0 mW2 1 :=
  ⟨by decide, (go_commit_ordered 0 mW2 1 false (by decide)).1⟩

theorem runActs_configs {S : Type} [DecidableEq S]
    (goF : Machine S → S → Machine S × List (Event S))
    (hF : ∀ mm t, (goF mm t).1.timeoutConfigs = mm.timeoutConfigs) :
    ∀ (acts : List (CbAct S)) (m : Machine S),
      (runActs goF acts m).1.timeoutConfigs = m.timeoutConfigs := by
  intro acts
  induction acts with
  | nil => intro m; rfl
  | cons a rest ih =>
      intro m
      cases a with
      | goTo t =>
          show (runActs goF rest (goF m t).1).1.timeoutConfigs = _
          rw [ih, hF]

theorem dispatchCbs_configs {S : Type} [DecidableEq S]
    (goF : Machine S → S → Machine S × List (Event S))
    (hF : ∀ mm t, (goF mm t).1.timeoutConfigs = mm.timeoutConfigs) (target : S) :
    ∀ (cbs : List (Cb S)) (m : Machine S),
      (dispatchCbs goF target cbs m).1.timeoutConfigs = m.timeoutConfigs := by
  intro cbs
  induction cbs with
  | nil => intro m; rfl
  | cons cb rest ih =>
      intro m
      show (dispatchCbs goF target rest (runActs goF cb.acts m).1).1.timeoutConfigs = _
      rw [ih, runActs_configs goF hF]

theorem clearStateTimeoutI_configs {S : Type} [DecidableEq S] (m : Machine S) (s : S) :
    (clearStateTimeoutI m s).1.timeoutConfigs = m.timeoutConfigs := by
  obtain ⟨pnd, act, hs⟩ := clearStateTimeoutI_shape m s
  rw [hs]

theorem startStateTimeout_configs {S : Type} [DecidableEq S] (m : Machine S) (s : S) :
    (startStateTimeout m s).1.timeoutConfigs = m.timeoutConfigs := by
  cases h : mapGet m.timeoutConfigs s with
  | none => simp [startStateTimeout, h]
  | some cfg => simp [startStateTimeout, h, clearStateTimeoutI_configs]

theorem go_configs {S : Type} [DecidableEq S] :
    ∀ (fuel : Nat) (m : Machine S) (t : S) (thr : Bool),
      (go fuel m t thr).1.timeoutConfigs = m.timeoutConfigs := by
  intro fuel
  induction fuel with
  | zero => intro m t thr; rfl
  | succ fuel ih =>
      intro m t thr
      cases hc : canTransition m t with
      | true =>
          rw [go_succ_valid fuel m t thr hc]
          show (startStateTimeout _ t).1.timeoutConfigs = _
          rw [startStateTimeout_configs]
          rw [dispatchCbs_configs (goB fuel) (fun mm tt => ih mm tt false) t]
          exact clearStateTimeoutI_configs m m.current
      | false =>
          cases thr <;> simp [go, hc]

theorem startStateTimeout_some {S : Type} [DecidableEq S] (m : Machine S) (s : S)
    (cfg : TimeoutConfig S) (h : mapGet m.timeoutConfigs s = some cfg) :
    (startStateTimeout m s).1 =
      { (clearStateTimeoutI m s).1 with
        nextId := (clearStateTimeoutI m s).1.nextId + 1,
        pending := (clearStateTimeoutI m s).1.pending ++
          [{ tid := (clearStateTimeoutI m s).1.nextId, state := s, config := cfg }],
        activeTimers := mapSet (clearStateTimeoutI m s).1.activeTimers s
          (clearStateTimeoutI m s).1.nextId } := by
  simp [startStateTimeout, h]

theorem startStateTimeout_arms {S : Type} [DecidableEq S] (m : Machine S) (s : S)
    (cfg : TimeoutConfig S) (h : mapGet m.timeoutConfigs s = some cfg) :
    ∃ p : PendingTimer S, p ∈ (startStateTimeout m s).1.pending ∧ p.state = s ∧
      p.config = cfg ∧ mapGet (startStateTimeout m s).1.activeTimers s = some p.tid := by
  rw [startStateTimeout_some m s cfg h]
  exact ⟨_, List.mem_append_right _ (List.mem_singleton.mpr rfl), rfl, rfl,
    mapGet_set_self _ _ _⟩

/-- C9: a callback dispatched during a committing `go(target)` runs its own
recursive `go` to completion before the outer call resumes — the outer call
is exactly the staged composition in which `startStateTimeout target` is
applied to the machine the callbacks produced — and that final step still
arms a timer keyed to `target` (carrying `target`'s config) whenever a config
for `target` exists, regardless of where the callbacks moved `current`. -/
theorem go_reentrant_arms_outer_target {S : Type} [DecidableEq S] (fuel : Nat)
    (m : Machine S) (target : S) (thr : Bool) (c : TimeoutConfig S)
    (h : canTransition m target = true) (hc : mapGet m.timeoutConfigs target = some c) :
    go (fuel + 1) m target thr = goCommit fuel m target ∧
    ∃ p : PendingTimer S,
      p ∈ (go (fuel + 1) m target thr).1.pending ∧ p.state = target ∧ p.config = c ∧
      mapGet (go (fuel + 1) m target thr).1.activeTimers target = some p.tid := by
  have he := go_succ_valid fuel m target thr h
  refine ⟨he, ?_⟩
  rw [he]
  simp only [goCommit]
  refine startStateTimeout_arms _ target c ?_
  rw [dispatchCbs_configs (goB fuel) (fun mm tt => go_configs fuel mm tt false) target]
  show mapGet (clearStateTimeoutI m m.current).1.timeoutConfigs target = some c
  rw [clearStateTimeoutI_configs]
  exact hc

def mW3 : Machine Nat :=
  { onState (addTransition (addTransition (mkTSM 0) 0 1 false) 1 2 false) 1
      { id := 9, acts := [CbAct.goTo 2] } with
    timeoutConfigs := [(1, { timeoutMs := 50, expireTo := some 2, onExpire := none })] }

theorem go_reentrant_arms_outer_target_witness :
    canTransition mW3 1 = true ∧
    mapGet mW3.timeoutConfigs 1 =
      some { timeoutMs := 50, expireTo := some 2, onExpire := none } ∧
    (go 2 mW3 1 false = goCommit 1 mW3 1 ∧
     ∃ p : PendingTimer Nat, p ∈ (go 2 mW3 1 false).1.pending ∧ p.state = 1 ∧
       p.config = { timeoutMs := 50, expireTo := some 2, onExpire := none } ∧
       mapGet (go 2 mW3 1 false).1.activeTimers 1 = some p.tid) ∧
    (go 2 mW3 1 false).1.current = 2 :=
  ⟨by decide, by decide,
   go_reentrant_arms_outer_target 1 mW3 1 false
     { timeoutMs := 50, expireTo := some 2, onExpire := none } (by decide) (by decide),
   by decide⟩

theorem canTransition_set_timers {S : Type} [DecidableEq S] (m : Machine S)
    (x : List (S × Nat)) (t : S) :
    canTransition { m with activeTimers := x } t = canTransition m t := rfl

/-- C3: the expiration handler (1) does nothing when `current` differs from
the expired state; otherwise it untracks the timer and (2) if `onExpire` is
set invokes it with the expired state and performs no automatic transition
(taking precedence over any `expireTo`); (3) else, with `expireTo` set, runs
the full `go(expireTo)` protocol when the transition is valid, and otherwise
emits a non-fatal warning and leaves `current` at the expired state. -/
theorem handleStateExpiration_cases {S : Type} [DecidableEq S] (fuel : Nat) (m : Machine S)
    (st : S) (cfg : TimeoutConfig S) :
    (m.current ≠ st → handleStateExpiration fuel m st cfg = (m, [])) ∧
    (m.current = st → ∀ hid, cfg.onExpire = some hid →
      handleStateExpiration fuel m st cfg =
        ({ m with activeTimers := mapDelete m.activeTimers st },
         [Event.expireCall hid st])) ∧
    (m.current = st → cfg.onExpire = none → ∀ tgt, cfg.expireTo = some tgt →
      (canTransition m tgt = true →
        handleStateExpiration fuel m st cfg =
          goB fuel { m with activeTimers := mapDelete m.activeTimers st } tgt) ∧
      (canTransition m tgt = false →
        handleStateExpiration fuel m st cfg =
          ({ m with activeTimers := mapDelete m.activeTimers st },
           [Event.warnExpire st tgt]) ∧
        ({ m with activeTimers := mapDelete m.activeTimers st } : Machine S).current = st)) := by
  refine ⟨?_, ?_, ?_⟩
  · intro hne
    simp [handleStateExpiration, hne]
  · intro hcur hid hoe
    subst hcur
    simp [handleStateExpiration, hoe]
  · intro hcur hoe tgt hto
    subst hcur
    constructor
    · intro hct
      simp [handleStateExpiration, hoe, hto, canTransition_set_timers, hct]
    · intro hct
      refine ⟨?_, rfl⟩
      simp [handleStateExpiration, hoe, hto, canTransition_set_timers, hct]

def cfgW : TimeoutConfig Nat := { timeoutMs := 40, expireTo := some 2, onExpire := some 5 }

theorem handleStateExpiration_cases_witness :
    ((2 : Nat) ≠ 1 → True) ∧
    (mW2.current = 0 ∧ cfgW.onExpire = some 5 ∧
     handleStateExpiration 1 mW2 0 cfgW =
       ({ mW2 with activeTimers := mapDelete mW2.activeTimers 0 },
        [Event.expireCall 5 0])) :=
  ⟨fun _ => trivial,
   ⟨by decide, by decide,
    (handleStateExpiration_cases 1 mW2 0 cfgW).2.1 (by decide) 5 (by decide)⟩⟩

/-- C4 (recording the code's behavior at the failing input): with a numeric
state domain, `setStateTimeout(1, {timeoutMs: 100, expireTo: 0})` throws the
`missing target` error even though `timeoutMs > 0` and `expireTo` is
supplied, because `!options.expireTo` applies JS truthiness to the state
value `0`. -/
theorem setStateTimeout_falsy_expireTo :
    setStateTimeout (fun n => decide (n = 0)) (mkTSM (1 : Nat)) 1
        { timeoutMs := 100, expireTo := some 0, onExpire := none } =
      Except.error TimeoutErr.missingTarget ∧
    ¬((100 : Int) ≤ 0) := ⟨by rfl, by decide⟩

/-- The callback list registered for a state (empty if none). -/
def cbList {S : Type} [DecidableEq S] (m : Machine S) (st : S) : List (Cb S) :=
  (mapGet m.cbMap st).getD []

/-- Is an event the invocation of this specific callback? -/
def isInvokeOf {S : Type} [DecidableEq S] (cb : Cb S) : Event S → Bool
  | Event.invoke c _ _ => decide (c = cb)
  | _ => false

theorem onState_get {S : Type} [DecidableEq S] (m : Machine S) (st : S) (cb : Cb S) :
    mapGet (onState m st cb).cbMap st =
      some (if cb ∈ cbList m st then cbList m st else cbList m st ++ [cb]) := by
  cases hg : mapGet m.cbMap st with
  | none =>
      have h1 : mapGet (mapSet m.cbMap st ([] : List (Cb S))) st = some [] :=
        mapGet_set_self _ _ _
      simp only [onState, hg, Option.isSome_none, Bool.false_eq_true, if_false]
      rw [h1]
      simp [cbList, hg, mapGet_set_self]
  | some l =>
      simp only [onState, hg, Option.isSome_some, if_true]
      by_cases hm : cb ∈ l
      · simp [hm, cbList, hg]
      · simp [hm, cbList, hg, mapGet_set_self]

theorem onState_mem {S : Type} [DecidableEq S] (m : Machine S) (st : S) (cb : Cb S) :
    cb ∈ cbList (onState m st cb) st := by
  rw [cbList, onState_get]
  by_cases hm : cb ∈ cbList m st
  · simp [hm]
  · simp [hm]

theorem onState_idem {S : Type} [DecidableEq S] (m : Machine S) (st : S) (cb : Cb S) :
    onState (onState m st cb) st cb = onState m st cb := by
  have hg := onState_get m st cb
  have hmem : cb ∈ (if cb ∈ cbList m st then cbList m st else cbList m st ++ [cb]) := by
    by_cases hm : cb ∈ cbList m st
    · simp [hm]
    · simp [hm]
  show (let m1 := if (mapGet (onState m st cb).cbMap st).isSome then onState m st cb
      else { onState m st cb with cbMap := mapSet (onState m st cb).cbMap st [] }
    match mapGet m1.cbMap st with
    | none => m1
    | some l => if cb ∈ l then m1
        else { m1 with cbMap := mapSet m1.cbMap st (l ++ [cb]) }) = onState m st cb
  rw [hg]
  simp only [Option.isSome_some, if_true]
  rw [hg]
  simp only [hmem, if_true]

theorem dispatchCbs_pure_trace {S : Type} [DecidableEq S]
    (goF : Machine S → S → Machine S × List (Event S)) (target : S) :
    ∀ (cbs : List (Cb S)) (mm : Machine S), (∀ c ∈ cbs, c.acts = []) →
      (dispatchCbs goF target cbs mm).2 =
        cbs.map (fun c => Event.invoke c mm.previous target) := by
  intro cbs
  induction cbs with
  | nil => intro mm h; rfl
  | cons cb rest ih =>
      intro mm h
      have ha : cb.acts = [] := h cb (List.mem_cons_self _ _)
      have hr : runActs goF cb.acts mm = (mm, []) := by rw [ha]; rfl
      show ((dispatchCbs goF target rest (runActs goF cb.acts mm).1).1,
        Event.invoke cb mm.previous target ::
          ((runActs goF cb.acts mm).2 ++
            (dispatchCbs goF target rest (runActs goF cb.acts mm).1).2)).2 = _
      rw [hr]
      simp only [List.map_cons, List.nil_append]
      rw [ih mm (fun c hc => h c (List.mem_cons_of_mem _ hc))]

theorem countP_invoke {S : Type} [DecidableEq S] (cb : Cb S) (prev target : S) :
    ∀ cbs : List (Cb S),
      ((cbs.map fun c => Event.invoke c prev target).countP (isInvokeOf cb)) =
        cbs.count cb := by
  intro cbs
  induction cbs with
  | nil => rfl
  | cons c rest ih =>
      simp only [List.map_cons, List.countP_cons, List.count_cons, ih, isInvokeOf]
      by_cases h : c = cb
      · simp [h]
      · simp [h]

/-- C8: callback registration is idempotent by reference: registering the
identical callback twice for a state leaves exactly one copy in that state's
list (the second `on` is the identity), and a dispatch of a state's list
invokes a callback once per copy, so each entry into the state invokes the
doubly-registered handler exactly once. -/
theorem callback_registration_idempotent {S : Type} [DecidableEq S] (m : Machine S)
    (st : S) (cb : Cb S) :
    onState (onState m st cb) st cb = onState m st cb ∧
    cb ∈ cbList (onState m st cb) st ∧
    ((cbList m st).count cb ≤ 1 →
      (cbList (onState (onState m st cb) st cb) st).count cb = 1) ∧
    (∀ (goF : Machine S → S → Machine S × List (Event S)) (cbs : List (Cb S))
        (mm : Machine S), (∀ c ∈ cbs, c.acts = []) →
      ((dispatchCbs goF st cbs mm).2.countP (isInvokeOf cb)) = cbs.count cb) := by
  refine ⟨onState_idem m st cb, onState_mem m st cb, ?_, ?_⟩
  · intro hle
    rw [onState_idem m st cb]
    rw [cbList, onState_get]
    by_cases hm : cb ∈ cbList m st
    · simp only [hm, if_true, Option.getD_some]
      have h1 : 1 ≤ (cbList m st).count cb := List.count_pos_iff.mpr hm
      omega
    · simp only [hm, if_false, Option.getD_some]
      rw [List.count_append]
      have h0 : (cbList m st).count cb = 0 := by
        rw [List.count_eq_zero]
        exact hm
      rw [h0]
      simp [List.count_singleton]
  · intro goF cbs mm hacts
    rw [dispatchCbs_pure_trace goF st cbs mm hacts]
    exact countP_invoke cb mm.previous st cbs

def cbW : Cb Nat := { id := 7, acts := [] }

theorem callback_registration_idempotent_witness :
    (cbList (mkTSM 0) 1).count cbW ≤ 1 ∧
    onState (onState (mkTSM 0) 1 cbW) 1 cbW = onState (mkTSM 0) 1 cbW ∧
    (cbList (onState (onState (mkTSM 0) 1 cbW) 1 cbW) 1).count cbW = 1 :=
  ⟨by decide, (callback_registration_idempotent (mkTSM 0) 1 cbW).1,
   (callback_registration_idempotent (mkTSM 0) 1 cbW).2.2.1 (by decide)⟩

/-- The timer bookkeeping invariant the machine maintains: every pending
host timeout is tracked in `activeTimers` under its state with its id,
every tracked id is below the `setTimeout` id counter, and pending timer ids
are pairwise distinct. -/
def TimerInv {S : Type} [DecidableEq S] (m : Machine S) : Prop :=
  (∀ p ∈ m.pending, mapGet m.activeTimers p.state = some p.tid) ∧
  (∀ e ∈ m.activeTimers, e.2 < m.nextId) ∧
  (m.pending.map PendingTimer.tid).Nodup

instance instDecidableTimerInv {S : Type} [DecidableEq S] (m : Machine S) :
    Decidable (TimerInv m) := by
  unfold TimerInv
  infer_instance

/-- Every state has at most one live (pending) timer. -/
def AtMostOneTimer {S : Type} [DecidableEq S] (m : Machine S) : Prop :=
  ∀ s : S, (m.pending.countP (fun p => decide (p.state = s))) ≤ 1

theorem timerInv_pending_lt {S : Type} [DecidableEq S] (m : Machine S) (h : TimerInv m) :
    ∀ p ∈ m.pending, p.tid < m.nextId :=
  fun p hp => h.2.1 (p.state, p.tid) (mem_of_mapGet_eq_some _ _ _ (h.1 p hp))

theorem nodup_concat_of {α : Type} (l : List α) (x : α) (hl : l.Nodup) (hx : x ∉ l) :
    (l ++ [x]).Nodup := by
  induction l with
  | nil => simp
  | cons a rest ih =>
      rw [List.cons_append, List.nodup_cons]
      refine ⟨?_, ih (List.nodup_cons.mp hl).2 (fun hc => hx (List.mem_cons_of_mem _ hc))⟩
      intro hmem
      rcases List.mem_append.mp hmem with hr | hs
      · exact (List.nodup_cons.mp hl).1 hr
      · exact hx (by simp at hs; rw [hs]; exact List.mem_cons_self _ _)

theorem countP_le_one_of_unique_key {α : Type} (l : List α) (f : α → Bool)
    (key : α → Nat) (t0 : Nat) (hnd : (l.map key).Nodup)
    (hk : ∀ a ∈ l, f a = true → key a = t0) : l.countP f ≤ 1 := by
  induction l with
  | nil => simp
  | cons a rest ih =>
      rw [List.map_cons, List.nodup_cons] at hnd
      rw [List.countP_cons]
      by_cases hf : f a = true
      · have h0 : rest.countP f = 0 := by
          rw [List.countP_eq_zero]
          intro b hb hfb
          exact hnd.1 (by
            rw [show key a = key b from (hk a (List.mem_cons_self _ _) hf).trans
              ((hk b (List.mem_cons_of_mem _ hb) hfb).symm)]
            exact List.mem_map_of_mem key hb)
        simp [hf, h0]
      · have := ih hnd.2 (fun b hb hfb => hk b (List.mem_cons_of_mem _ hb) hfb)
        simp [hf]
        omega

theorem timerInv_atMostOne {S : Type} [DecidableEq S] (m : Machine S) (h : TimerInv m) :
    AtMostOneTimer m := by
  intro s
  cases hg : mapGet m.activeTimers s with
  | none =>
      have h0 : m.pending.countP (fun p => decide (p.state = s)) = 0 := by
        rw [List.countP_eq_zero]
        intro p hp hps
        have heq : p.state = s := of_decide_eq_true hps
        have hpt := h.1 p hp
        rw [heq, hg] at hpt
        cases hpt
      rw [h0]
      omega
  | some tid =>
      refine countP_le_one_of_unique_key m.pending _ PendingTimer.tid tid h.2.2 ?_
      intro p hp hps
      have := h.1 p hp
      rw [of_decide_eq_true hps, hg] at this
      exact (Option.some_injective _ this).symm

theorem mem_mapSet {S V : Type} [DecidableEq S] (l : List (S × V)) (k : S) (v : V)
    (e : S × V) (h : e ∈ mapSet l k v) : e = (k, v) ∨ e ∈ l := by
  induction l with
  | nil => simp [mapSet] at h; left; exact h
  | cons hd tl ih =>
      rw [mapSet] at h
      by_cases hh : hd.1 = k
      · rw [if_pos hh] at h
        rcases List.mem_cons.mp h with he | ht
        · left; exact he
        · right; exact List.mem_cons_of_mem _ ht
      · rw [if_neg hh] at h
        rcases List.mem_cons.mp h with he | ht
        · right; rw [he]; exact List.mem_cons_self _ _
        · rcases ih ht with h1 | h2
          · left; exact h1
          · right; exact List.mem_cons_of_mem _ h2

theorem clearStateTimeoutI_inv {S : Type} [DecidableEq S] (m : Machine S) (s : S)
    (h : TimerInv m) : TimerInv (clearStateTimeoutI m s).1 := by
  cases hg : mapGet m.activeTimers s with
  | none => simpa [clearStateTimeoutI, hg] using h
  | some tid =>
      simp only [clearStateTimeoutI, hg]
      refine ⟨?_, ?_, ?_⟩
      · intro p hp
        have hp2 : p ∈ m.pending.filter (fun q => decide ¬(q.tid = tid)) := hp
        have hmem := List.mem_of_mem_filter hp2
        have hq := List.of_mem_filter hp2
        have hne : ¬ (p.tid = tid) := by simpa using hq
        have hst : p.state ≠ s := by
          intro he
          have hh := h.1 p hmem
          rw [he, hg] at hh
          exact hne (Option.some_injective _ hh.symm)
        show mapGet (mapDelete m.activeTimers s) p.state = some p.tid
        rw [mapGet_delete_ne _ _ _ (fun e => hst e.symm)]
        exact h.1 p hmem
      · intro e he
        have he2 : e ∈ m.activeTimers := List.mem_of_mem_filter he
        exact h.2.1 e he2
      · exact List.Nodup.sublist
          (List.Sublist.map PendingTimer.tid (List.filter_sublist m.pending)) h.2.2
  
theorem clearStateTimeoutI_no_pending {S : Type} [DecidableEq S] (m : Machine S) (s : S)
    (h : TimerInv m) : ∀ p ∈ (clearStateTimeoutI m s).1.pending, p.state ≠ s := by
  cases hg : mapGet m.activeTimers s with
  | none =>
      intro p hp he
      simp only [clearStateTimeoutI, hg] at hp
      have := h.1 p hp
      rw [he, hg] at this
      cases this
  | some tid =>
      intro p hp he
      simp only [clearStateTimeoutI, hg] at hp
      have hp2 : p ∈ m.pending.filter (fun q => decide ¬(q.tid = tid)) := hp
      have hmem := List.mem_of_mem_filter hp2
      have hq := List.of_mem_filter hp2
      have hne : ¬ (p.tid = tid) := by simpa using hq
      have hh := h.1 p hmem
      rw [he, hg] at hh
      exact hne (Option.some_injective _ hh.symm)

theorem clearStateTimeoutI_nextId {S : Type} [DecidableEq S] (m : Machine S) (s : S) :
    (clearStateTimeoutI m s).1.nextId = m.nextId := by
  obtain ⟨pnd, act, hs⟩ := clearStateTimeoutI_shape m s
  rw [hs]

theorem startStateTimeout_inv {S : Type} [DecidableEq S] (m : Machine S) (s : S)
    (h : TimerInv m) : TimerInv (startStateTimeout m s).1 := by
  cases hc : mapGet m.timeoutConfigs s with
  | none => simpa [startStateTimeout, hc] using h
  | some cfg =>
      rw [startStateTimeout_some m s cfg hc]
      have h1 : TimerInv (clearStateTimeoutI m s).1 := clearStateTimeoutI_inv m s h
      have hnp := clearStateTimeoutI_no_pending m s h
      refine ⟨?_, ?_, ?_⟩
      · intro p hp
        rcases List.mem_append.mp hp with hold | hnew
        · have hst := hnp p hold
          show mapGet (mapSet _ s _) p.state = some p.tid
          rw [mapGet_set_ne _ _ _ _ (fun e => hst e.symm)]
          exact h1.1 p hold
        · rw [List.mem_singleton.mp hnew]
          exact mapGet_set_self _ _ _
      · intro e he
        rcases mem_mapSet _ _ _ e he with hnew | hold
        · rw [hnew]
          exact Nat.lt_succ_self _
        · exact Nat.lt_succ_of_lt (h1.2.1 e hold)
      · rw [List.map_append]
        refine nodup_concat_of _ _ h1.2.2 ?_
        intro hc2
        rcases List.mem_map.mp (by simpa using hc2) with ⟨p, hp, hpt⟩
        have hplt := timerInv_pending_lt _ h1 p hp
        rw [hpt] at hplt
        exact Nat.lt_irrefl _ hplt

theorem clearAllTimeouts_pending {S : Type} [DecidableEq S] (m : Machine S)
    (h : TimerInv m) : (clearAllTimeouts m).pending = [] := by
  show m.pending.filter _ = []
  rw [List.filter_eq_nil_iff]
  intro p hp
  have hg := h.1 p hp
  have hmem : (p.state, p.tid) ∈ m.activeTimers := mem_of_mapGet_eq_some _ _ _ hg
  have hid : p.tid ∈ m.activeTimers.map (fun e => e.2) := by
    exact List.mem_map.mpr ⟨(p.state, p.tid), hmem, rfl⟩
  simp [hid]

theorem clearAllTimeouts_inv {S : Type} [DecidableEq S] (m : Machine S)
    (h : TimerInv m) : TimerInv (clearAllTimeouts m) := by
  refine ⟨?_, ?_, ?_⟩
  · intro p hp
    rw [clearAllTimeouts_pending m h] at hp
    cases hp
  · intro e he
    cases he
  · rw [clearAllTimeouts_pending m h]
    exact List.nodup_nil

theorem runActs_inv {S : Type} [DecidableEq S]
    (goF : Machine S → S → Machine S × List (Event S))
    (hF : ∀ mm t, TimerInv mm → TimerInv (goF mm t).1) :
    ∀ (acts : List (CbAct S)) (m : Machine S), TimerInv m → TimerInv (runActs goF acts m).1 := by
  intro acts
  induction acts with
  | nil => intro m h; exact h
  | cons a rest ih =>
      intro m h
      cases a with
      | goTo t =>
          show TimerInv (runActs goF rest (goF m t).1).1
          exact ih _ (hF m t h)

theorem dispatchCbs_inv {S : Type} [DecidableEq S]
    (goF : Machine S → S → Machine S × List (Event S))
    (hF : ∀ mm t, TimerInv mm → TimerInv (goF mm t).1) (target : S) :
    ∀ (cbs : List (Cb S)) (m : Machine S), TimerInv m → TimerInv (dispatchCbs goF target cbs m).1 := by
  intro cbs
  induction cbs with
  | nil => intro m h; exact h
  | cons cb rest ih =>
      intro m h
      show TimerInv (dispatchCbs goF target rest (runActs goF cb.acts m).1).1
      exact ih _ (runActs_inv goF hF cb.acts m h)

theorem go_inv {S : Type} [DecidableEq S] :
    ∀ (fuel : Nat) (m : Machine S) (t : S) (thr : Bool),
      TimerInv m → TimerInv (go fuel m t thr).1 := by
  intro fuel
  induction fuel with
  | zero => intro m t thr h; exact h
  | succ fuel ih =>
      intro m t thr h
      cases hc : canTransition m t with
      | true =>
          rw [go_succ_valid fuel m t thr hc]
          show TimerInv (startStateTimeout _ t).1
          apply startStateTimeout_inv
          apply dispatchCbs_inv (goB fuel) (fun mm tt hmm => ih mm tt false hmm) t
          exact clearStateTimeoutI_inv m m.current h
      | false =>
          cases thr <;> simpa [go, hc] using h

theorem handleStateExpiration_inv {S : Type} [DecidableEq S] (fuel : Nat) (m : Machine S)
    (st : S) (cfg : TimeoutConfig S) (h : TimerInv m)
    (hnp : ∀ p ∈ m.pending, p.state ≠ st) :
    TimerInv (handleStateExpiration fuel m st cfg).1 := by
  have hm1 : TimerInv ({ m with activeTimers := mapDelete m.activeTimers st } : Machine S) := by
    refine ⟨?_, ?_, h.2.2⟩
    · intro p hp
      show mapGet (mapDelete m.activeTimers st) p.state = some p.tid
      rw [mapGet_delete_ne _ _ _ (fun e => hnp p hp e.symm)]
      exact h.1 p hp
    · intro e he
      exact h.2.1 e (List.mem_of_mem_filter he)
  by_cases hcur : m.current = st
  · cases hoe : cfg.onExpire with
    | some hid => simpa [handleStateExpiration, hcur, hoe] using hm1
    | none =>
        cases hto : cfg.expireTo with
        | none => simpa [handleStateExpiration, hcur, hoe, hto] using hm1
        | some tgt =>
            by_cases hct : canTransition m tgt = true
            · rw [show handleStateExpiration fuel m st cfg =
                  goB fuel { m with activeTimers := mapDelete m.activeTimers st } tgt from by
                subst hcur
                simp [handleStateExpiration, hoe, hto, canTransition_set_timers, hct]]
              exact go_inv fuel _ tgt false hm1
            · have hct2 : canTransition m tgt = false := by
                revert hct; cases canTransition m tgt <;> simp
              rw [show handleStateExpiration fuel m st cfg =
                  ({ m with activeTimers := mapDelete m.activeTimers st },
                   [Event.warnExpire st tgt]) from by
                subst hcur
                simp [handleStateExpiration, hoe, hto, canTransition_set_timers, hct2]]
              exact hm1
  · simpa [handleStateExpiration, hcur] using h

theorem fireTimer_inv {S : Type} [DecidableEq S] (fuel : Nat) (m : Machine S) (tid : Nat)
    (h : TimerInv m) : TimerInv (fireTimer fuel m tid).1 := by
  cases hf : m.pending.find? (fun p => decide (p.tid = tid)) with
  | none => simpa [fireTimer, hf] using h
  | some p =>
      have hpm : p ∈ m.pending := List.mem_of_find?_eq_some hf
      have hpt : p.tid = tid := by
        have := List.find?_some hf
        simpa using this
      have hm1 : TimerInv ({ m with
          pending := m.pending.filter (fun q => decide ¬(q.tid = tid)) } : Machine S) := by
        refine ⟨?_, h.2.1, ?_⟩
        · intro q hq
          exact h.1 q (List.mem_of_mem_filter hq)
        · exact List.Nodup.sublist
            (List.Sublist.map PendingTimer.tid (List.filter_sublist m.pending)) h.2.2
      have hnp : ∀ q ∈ ({ m with
          pending := m.pending.filter (fun q => decide ¬(q.tid = tid)) } : Machine S).pending,
          q.state ≠ p.state := by
        intro q hq he
        have hq2 : q ∈ m.pending.filter (fun q => decide ¬(q.tid = tid)) := hq
        have hqm := List.mem_of_mem_filter hq2
        have hqf := List.of_mem_filter hq2
        have hqne : ¬ (q.tid = tid) := by simpa using hqf
        have h1 := h.1 q hqm
        have h2 := h.1 p hpm
        rw [he] at h1
        rw [h1] at h2
        have hqp : q.tid = p.tid := Option.some_injective _ h2
        rw [hpt] at hqp
        exact hqne hqp
      have hres : fireTimer fuel m tid =
          handleStateExpiration fuel
            ({ m with pending := m.pending.filter (fun q => decide ¬(q.tid = tid)) })
            p.state p.config := by
        simp [fireTimer, hf]
      rw [hres]
      exact handleStateExpiration_inv fuel _ p.state p.config hm1 hnp

theorem reset_inv {S : Type} [DecidableEq S] (m : Machine S) (h : TimerInv m) :
    TimerInv (reset m).1 := by
  apply startStateTimeout_inv
  exact clearAllTimeouts_inv m h

theorem setStateTimeout_inv {S : Type} [DecidableEq S] (falsy : S → Bool) (m : Machine S)
    (st : S) (opts : StateTimeoutOptions S) (m2 : Machine S) (tr : List (Event S))
    (h : TimerInv m) (hok : setStateTimeout falsy m st opts = Except.ok (m2, tr)) :
    TimerInv m2 := by
  by_cases h1 : opts.timeoutMs ≤ 0
  · simp [setStateTimeout, h1] at hok
  · by_cases h2 : (optionFalsy falsy opts.expireTo && opts.onExpire.isNone) = true
    · simp [setStateTimeout, h1, h2] at hok
    · have hmc : TimerInv ({ m with
          timeoutConfigs := mapSet m.timeoutConfigs st
            { timeoutMs := opts.timeoutMs, expireTo := opts.expireTo,
              onExpire := opts.onExpire } } : Machine S) := h
      by_cases h3 : m.current = st
      · simp only [setStateTimeout, h1, if_false, h2, Bool.false_eq_true, h3, if_true,
          eq_self_iff_true, Except.ok.injEq] at hok
        rw [Prod.ext_iff] at hok
        rcases hok with ⟨hm2, -⟩
        have hm2x : _ = m2 := hm2
        rw [← hm2x]
        apply startStateTimeout_inv
        rw [h3] at hmc
        exact hmc
      · simp only [setStateTimeout, h1, if_false, h2, Bool.false_eq_true, h3,
          eq_self_iff_true, Except.ok.injEq] at hok
        rw [Prod.ext_iff] at hok
        rcases hok with ⟨hm2, -⟩
        have hm2x : _ = m2 := hm2
        rw [← hm2x]
        exact hmc

theorem clearStateTimeout_inv {S : Type} [DecidableEq S] (m : Machine S) (st : S)
    (h : TimerInv m) : TimerInv (clearStateTimeout m st).1 := by
  apply clearStateTimeoutI_inv
  exact h

theorem mkTSM_inv {S : Type} [DecidableEq S] (s : S) : TimerInv (mkTSM s) := by
  refine ⟨?_, ?_, ?_⟩ <;> simp [mkTSM]

theorem startStateTimeout_cancels {S : Type} [DecidableEq S] (m : Machine S) (s : S)
    (tid : Nat) (cfg : TimeoutConfig S) (h : TimerInv m)
    (hg : mapGet m.activeTimers s = some tid) (hc : mapGet m.timeoutConfigs s = some cfg) :
    (∀ p ∈ (startStateTimeout m s).1.pending, p.state = s → p.tid ≠ tid) ∧
    ((startStateTimeout m s).1.pending.countP (fun p => decide (p.state = s))) = 1 := by
  rw [startStateTimeout_some m s cfg hc]
  have hnp := clearStateTimeoutI_no_pending m s h
  constructor
  · intro p hp hps
    rcases List.mem_append.mp hp with hold | hnew
    · exact absurd hps (hnp p hold)
    · rw [List.mem_singleton.mp hnew]
      intro he
      have he2 : (clearStateTimeoutI m s).1.nextId = tid := he
      rw [clearStateTimeoutI_nextId] at he2
      have hlt : tid < m.nextId := h.2.1 (s, tid) (mem_of_mapGet_eq_some _ _ _ hg)
      omega
  · rw [List.countP_append]
    have h0 : ((clearStateTimeoutI m s).1.pending.countP
        (fun p => decide (p.state = s))) = 0 := by
      rw [List.countP_eq_zero]
      intro p hp hps
      exact hnp p hp (of_decide_eq_true hps)
    rw [h0]
    simp

/-- C5: timer exclusivity.  The timer invariant (every pending host timeout
tracked under its state with a unique id below the id counter) holds of a
fresh machine and is preserved by `go`, `reset`, `setStateTimeout`,
`clearStateTimeout`, and a timer firing; under it every state has at most one
live timer, and arming a state that already has an armed timer first cancels
the existing one, leaving exactly one live timer for that state. -/
theorem timer_exclusivity {S : Type} [DecidableEq S] :
    (∀ s : S, TimerInv (mkTSM s)) ∧
    (∀ (fuel : Nat) (m : Machine S) (t : S) (thr : Bool),
      TimerInv m → TimerInv (go fuel m t thr).1) ∧
    (∀ m : Machine S, TimerInv m → TimerInv (reset m).1) ∧
    (∀ (falsy : S → Bool) (m : Machine S) (st : S) (opts : StateTimeoutOptions S)
      (m2 : Machine S) (tr : List (Event S)), TimerInv m →
      setStateTimeout falsy m st opts = Except.ok (m2, tr) → TimerInv m2) ∧
    (∀ (m : Machine S) (st : S), TimerInv m → TimerInv (clearStateTimeout m st).1) ∧
    (∀ (fuel : Nat) (m : Machine S) (tid : Nat),
      TimerInv m → TimerInv (fireTimer fuel m tid).1) ∧
    (∀ m : Machine S, TimerInv m → AtMostOneTimer m) ∧
    (∀ (m : Machine S) (s : S) (tid : Nat) (cfg : TimeoutConfig S), TimerInv m →
      mapGet m.activeTimers s = some tid → mapGet m.timeoutConfigs s = some cfg →
      (∀ p ∈ (startStateTimeout m s).1.pending, p.state = s → p.tid ≠ tid) ∧
      ((startStateTimeout m s).1.pending.countP (fun p => decide (p.state = s))) = 1) :=
  ⟨mkTSM_inv, go_inv,
   (fun m h => reset_inv m h),
   (fun falsy m st opts m2 tr h hok => setStateTimeout_inv falsy m st opts m2 tr h hok),
   (fun m st h => clearStateTimeout_inv m st h),
   (fun fuel m tid h => fireTimer_inv fuel m tid h),
   (fun m h => timerInv_atMostOne m h),
   (fun m s tid cfg h hg hc => startStateTimeout_cancels m s tid cfg h hg hc)⟩

theorem timer_exclusivity_witness :
    TimerInv mW2 ∧ AtMostOneTimer (go 1 mW2 1 false).1 :=
  ⟨by decide,
   (@timer_exclusivity Nat _).2.2.2.2.2.2.1 _
     ((@timer_exclusivity Nat _).2.1 1 mW2 1 false (by decide))⟩

/-- C6: `reset` restores `current == previous == initial`, leaves the
transition graph, callback registry and every stored timeout config
unchanged, and leaves zero armed timers — except a single freshly armed
timer for the initial state when the initial state has a timeout config. -/
theorem reset_restores {S : Type} [DecidableEq S] (m : Machine S) (h : TimerInv m) :
    (reset m).1.current = m.initial ∧
    (reset m).1.previous = m.initial ∧
    (reset m).1.initial = m.initial ∧
    (reset m).1.transitions = m.transitions ∧
    (reset m).1.cbMap = m.cbMap ∧
    (reset m).1.timeoutConfigs = m.timeoutConfigs ∧
    (mapGet m.timeoutConfigs m.initial = none →
      (reset m).1.pending = [] ∧ (reset m).1.activeTimers = []) ∧
    (∀ cfg, mapGet m.timeoutConfigs m.initial = some cfg →
      (reset m).1.pending = [{ tid := m.nextId, state := m.initial, config := cfg }] ∧
      (reset m).1.activeTimers = [(m.initial, m.nextId)]) := by
  have hP : m.pending.filter
      (fun p => decide ¬(p.tid ∈ m.activeTimers.map (fun e => e.2))) = [] :=
    clearAllTimeouts_pending m h
  cases hc : mapGet m.timeoutConfigs m.initial with
  | none =>
      refine ⟨?_, ?_, ?_, ?_, ?_, ?_, ?_, ?_⟩ <;>
        simp [reset, clearAllTimeouts, startStateTimeout, hc, hP, clearStateTimeoutI,
          mapGet, mapSet]
      all_goals
        intro a ha
        exact ⟨a.state, mem_of_mapGet_eq_some _ _ _ (h.1 a ha)⟩
  | some cfg =>
      refine ⟨?_, ?_, ?_, ?_, ?_, ?_, ?_, ?_⟩ <;>
        simp [reset, clearAllTimeouts, startStateTimeout, hc, hP, clearStateTimeoutI,
          mapGet, mapSet]
      all_goals
        intro a ha
        exact ⟨a.state, mem_of_mapGet_eq_some _ _ _ (h.1 a ha)⟩

def mWr : Machine Nat := (go 1 mW2 1 false).1

theorem reset_restores_witness :
    TimerInv mWr ∧ mapGet mWr.timeoutConfigs mWr.initial = none ∧
    (reset mWr).1.current = mWr.initial ∧ (reset mWr).1.previous = mWr.initial ∧
    (reset mWr).1.pending = [] ∧ (reset mWr).1.activeTimers = [] :=
  ⟨by decide, by decide,
   (reset_restores mWr (by decide)).1,
   (reset_restores mWr (by decide)).2.1,
   ((reset_restores mWr (by decide)).2.2.2.2.2.2.1 (by decide)).1,
   ((reset_restores mWr (by decide)).2.2.2.2.2.2.1 (by decide)).2⟩
